import Mathlib

/-!
A shallow embedding of the trace-arithmetization core of the zkWasm repository
(crates/specs and crates/zkwasm), together with theorems settling the frozen
claims about its specification.

Conventions:
* Machine integers (`u32`, `u64`) are embedded as `Nat`; signed wasm values
  (`i32`, `i64`) as `Int`, with the Rust `as u32` / `as u64` casts made explicit
  as `% 2^32` / `% 2^64`.
* Fallible code paths (`.unwrap()` on a lookup, `unreachable!()`) are embedded
  with `Option`: `none` is the fatal construction error.
* Constraint-system cell assignments are embedded as explicit lists of
  `(cell, value)` or `(row, value)` pairs.
-/

set_option maxRecDepth 100000

namespace ZkWasm

/-- `LocationType` from specs/src/mtable.rs (the file itself is absent from the
corpus; the variants are those used by `Tables::create_memory_table` and the
spec §3: stack, heap and global locations). -/
inductive LocationType where
  | Stack
  | Heap
  | Global
deriving DecidableEq, Repr

/-- `AccessType` from specs/src/mtable.rs: the access kind of a memory event. -/
inductive AccessType where
  | Read
  | Write
  | Init
deriving DecidableEq, Repr

/-- `MemoryTableEntry` from specs/src/mtable.rs, as consumed and produced by
`Tables::create_memory_table` (specs/src/lib.rs).  `vtype` is the numeric code
of the value type; `emid` is the sub-id disambiguating accesses within one
execution id. -/
structure MemoryTableEntry where
  eid : Nat
  emid : Nat
  offset : Nat
  ltype : LocationType
  atype : AccessType
  vtype : Nat
  is_mutable : Bool
  value : Nat
deriving DecidableEq, Repr

/-- Modelled from the spec: `InitMemoryEntry` (specs/src/imtable.rs is absent
from the corpus); §3 gives `{ location_kind, offset, value, is_mutable }`, and
`try_find` additionally yields the stored value type. -/
structure InitMemoryEntry where
  ltype : LocationType
  offset : Nat
  is_mutable : Bool
  vtype : Nat
  value : Nat
deriving DecidableEq, Repr

/-- Modelled from the spec: `InitMemoryTable::try_find` (specs/src/imtable.rs is
absent from the corpus); §4.1 calls it a "point lookup into InitMemoryEntry for
`(location_kind, offset)`".  It returns the mutability, value type and value of
the matching entry, if any. -/
def try_find (imtable : List InitMemoryEntry) (lt : LocationType) (off : Nat) :
    Option (Bool × Nat × Nat) :=
  (imtable.find? (fun e => e.ltype == lt && e.offset == off)).map
    (fun e => (e.is_mutable, e.vtype, e.value))

/-- Discriminant order of `LocationType` used by the derived `Ord` in the sort
key of `create_memory_table`. -/
def ltypeIdx : LocationType → Nat
  | LocationType.Stack => 0
  | LocationType.Heap => 1
  | LocationType.Global => 2

/-- The sort key `(ltype, offset, eid, emid)` of `create_memory_table`. -/
def memKey (e : MemoryTableEntry) : Nat × Nat × Nat × Nat :=
  (ltypeIdx e.ltype, e.offset, e.eid, e.emid)

/-- Lexicographic order on the 4-component sort key. -/
def lexLe4 (a b : Nat × Nat × Nat × Nat) : Prop :=
  a.1 < b.1 ∨ (a.1 = b.1 ∧
    (a.2.1 < b.2.1 ∨ (a.2.1 = b.2.1 ∧
      (a.2.2.1 < b.2.2.1 ∨ (a.2.2.1 = b.2.2.1 ∧ a.2.2.2 ≤ b.2.2.2)))))

instance : DecidableRel lexLe4 := by
  intro a b
  unfold lexLe4
  infer_instance

/-- `sort_by_key` comparison of `create_memory_table`. -/
def memLe (a b : MemoryTableEntry) : Prop := lexLe4 (memKey a) (memKey b)

instance : DecidableRel memLe := by
  intro a b
  unfold memLe
  infer_instance

/-- The per-entry body of the `init_value` pass of `Tables::create_memory_table`
(specs/src/lib.rs lines 152-167): for a heap or global access, look its offset
up in the initial-memory table — the `.unwrap()` on a miss is the fatal
`MissingInitValue` error, embedded as the outer `none`; for a stack access no
value is produced (`some none`). -/
def init_value_of_entry (imtable : List InitMemoryEntry)
    (entry : MemoryTableEntry) : Option (Option Nat) :=
  if entry.ltype = LocationType.Heap ∨ entry.ltype = LocationType.Global then
    (try_find imtable entry.ltype entry.offset).map (fun r => some r.2.2)
  else
    some none

/-- The `init_value` pass of `Tables::create_memory_table` over the whole
entry list: collect each per-entry lookup result; a fatal miss on any entry
(the `.unwrap()` panic) aborts the whole construction. -/
def init_values (imtable : List InitMemoryEntry) :
    List MemoryTableEntry → Option (List (Option Nat))
  | [] => some []
  | e :: l =>
    match init_value_of_entry imtable e, init_values imtable l with
    | some b, some tl => some (b :: tl)
    | _, _ => none

/-- The Init row synthesized for an accessed heap/global location
(specs/src/lib.rs lines 176-187): execution id 0, sub-id 0, the access's
offset/location/value-type/mutability, and the looked-up initial value. -/
def init_entry_of (entry : MemoryTableEntry) (v : Nat) : MemoryTableEntry :=
  { eid := 0
    emid := 0
    offset := entry.offset
    ltype := entry.ltype
    atype := AccessType.Init
    vtype := entry.vtype
    is_mutable := entry.is_mutable
    value := v }

/-- The body of the `set.insert` loop of `Tables::create_memory_table`: each
(entry, looked-up init value) pair contributes one synthesized Init row when
the entry is a heap/global access. -/
def mk_init_entry (p : MemoryTableEntry × Option Nat) : Option MemoryTableEntry :=
  p.2.map (init_entry_of p.1)

/-- `Tables::create_memory_table` (specs/src/lib.rs lines 139-195).  The derived
per-step memory events (the concatenated output of `memory_event_of_step`) are
taken as the input list, mirroring the parallel expansion already flattened.
The `HashSet` deduplication of the synthesized Init rows is `List.dedup` (a set
keyed on the full entry), and the final `sort_by_key` over
`(ltype, offset, eid, emid)` is the stable `insertionSort` by `memLe`. -/
def create_memory_table (imtable : List InitMemoryEntry)
    (memory_entries : List MemoryTableEntry) : Option (List MemoryTableEntry) :=
  (init_values imtable memory_entries).map
    (fun init_value =>
      let inits := (memory_entries.zip init_value).filterMap mk_init_entry
      List.insertionSort memLe (memory_entries ++ inits.dedup))

/-- The synthesized Init rows expressed directly over the entry list (equal to
the zip/filterMap pass whenever every lookup succeeds; proved below). -/
def direct_inits (imtable : List InitMemoryEntry)
    (memory_entries : List MemoryTableEntry) : List MemoryTableEntry :=
  memory_entries.filterMap (fun e =>
    (init_value_of_entry imtable e).bind (fun iv => iv.map (init_entry_of e)))

/-- `InitializationState<u32>` from specs/src/lib.rs. -/
structure InitializationState where
  eid : Nat
  fid : Nat
  iid : Nat
  frame_id : Nat
  sp : Nat
  initial_memory_pages : Nat
  maximal_memory_pages : Nat
  input_index : Nat
  context_input_index : Nat
  context_output_index : Nat
  external_host_call_index : Nat
  jops : Nat
deriving DecidableEq, Repr

/-- The genesis `InitializationState` built by `WasmiRuntime::compile`
(crates/zkwasm/src/runtime/wasmi_interpreter.rs lines 162-175).
`DEFAULT_VALUE_STACK_LIMIT` belongs to the external wasmi crate and is taken as
a parameter, as are the entry function id and the configured page counts. -/
def genesisInitializationState (stackLimit fid_of_entry init_pages max_pages : Nat) :
    InitializationState :=
  { eid := 1
    fid := fid_of_entry
    iid := 0
    frame_id := 0
    sp := stackLimit - 1
    initial_memory_pages := init_pages
    maximal_memory_pages := max_pages
    input_index := 1
    context_input_index := 1
    context_output_index := 1
    external_host_call_index := 1
    jops := 0 }

/-- Modelled from the spec: the bitwise binary operation classes (`BitOp` in
specs/src/itable.rs, absent from the corpus); §4.4 needs only that such a class
tags 32/64-bit bitwise steps. -/
inductive BitOpClass where
  | And
  | Or
  | Xor
deriving DecidableEq, Repr

/-- Modelled from the spec: the unary operation classes (`UnaryOp` in
specs/src/itable.rs, absent from the corpus); only `Popcnt` is distinguished by
the bit-table filter. -/
inductive UnaryOpClass where
  | Ctz
  | Clz
  | Popcnt
deriving DecidableEq, Repr

/-- The `step_info` variants of specs/src/step.rs that the embedded code
inspects (`filter_bit_table_entries`); every other variant is collapsed into
`Other`. -/
inductive StepInfo where
  | I32BinBitOp (cls : BitOpClass) (left right value : Int)
  | I64BinBitOp (cls : BitOpClass) (left right value : Int)
  | UnaryOp (cls : UnaryOpClass) (operand : Nat)
  | Other (tag : Nat)
deriving DecidableEq, Repr

/-- Modelled from the spec: `Opcode` (specs/src/itable.rs is absent from the
corpus); the embedded code inspects only the `Return { drop, .. }` shape, all
other opcodes are collapsed into `Other`. -/
inductive Opcode where
  | Ret (drop : Nat)
  | Other (tag : Nat)
deriving DecidableEq, Repr

/-- `EventTableEntry` from specs/src/etable.rs with its `inst` fields
(`fid`, `iid`, `opcode`) flattened in. -/
structure EtableEntry where
  eid : Nat
  fid : Nat
  iid : Nat
  opcode : Opcode
  sp : Nat
  last_jump_eid : Nat
  allocated_memory_pages : Nat
  step_info : StepInfo
deriving DecidableEq, Repr

/-- `Status` from circuits/utils/step_status.rs as populated by
`EventTableChip::assign_entries`. -/
structure Status where
  eid : Nat
  fid : Nat
  iid : Nat
  sp : Nat
  last_jump_eid : Nat
  allocated_memory_pages : Nat
deriving DecidableEq, Repr

/-- The per-entry `Status` built by `EventTableChip::assign_entries`
(circuits/etable/assign.rs lines 213-224). -/
def entry_status (e : EtableEntry) : Status :=
  { eid := e.eid
    fid := e.fid
    iid := e.iid
    sp := e.sp
    last_jump_eid := e.last_jump_eid
    allocated_memory_pages := e.allocated_memory_pages }

/-- The `terminate_status` of `EventTableChip::assign_entries`
(circuits/etable/assign.rs lines 226-240): execution id of the last step plus
one, zero function/instruction ids, stack pointer bumped by the drop count of
the final `Return` opcode.  The `unreachable!()` hit when the last opcode is
not a `Return` (the `MalformedTerminalTrace` failure of the spec) is embedded
as `none`, as is the `.unwrap()` on an empty table. -/
def terminate_status (l : List EtableEntry) : Option Status :=
  match l.getLast? with
  | none => none
  | some last =>
    match last.opcode with
    | Opcode.Ret d =>
      some
        { eid := last.eid + 1
          fid := 0
          iid := 0
          sp := last.sp + d
          last_jump_eid := 0
          allocated_memory_pages := last.allocated_memory_pages }
    | Opcode.Other _ => none

/-- The full status vector of `EventTableChip::assign_entries`: one `Status`
per event entry with the terminate status appended. -/
def status_list (l : List EtableEntry) : Option (List Status) :=
  (terminate_status l).map (fun t => l.map entry_status ++ [t])

/-- One step of the reversed fold of `EventTableChip::compute_rest_mops_and_jops`
(circuits/etable/assign.rs lines 29-46): add the entry's memory-writing-op and
jump-op counts to the running sums and push the accumulator. -/
def rest_ops_step (mops jops : EtableEntry → Nat)
    (st : (Nat × Nat) × List (Nat × Nat)) (e : EtableEntry) :
    (Nat × Nat) × List (Nat × Nat) :=
  let acc := (st.1.1 + mops e, st.1.2 + jops e)
  (acc, st.2 ++ [acc])

/-- `EventTableChip::compute_rest_mops_and_jops` (circuits/etable/assign.rs
lines 22-51): fold over the reversed event table accumulating the two counters,
then reverse the pushed list.  The per-opcode `memory_writing_ops` and `jops`
of the opcode-config registry (`op_configs`, built outside the corpus) are
taken as function parameters. -/
def compute_rest_mops_and_jops (mops jops : EtableEntry → Nat)
    (l : List EtableEntry) : List (Nat × Nat) :=
  ((l.reverse.foldl (rest_ops_step mops jops) ((0, 0), [])).2).reverse

/-- The named cells that `EventTableChip::init` can pin to constants after the
step-selector loop. -/
inductive EtableCell where
  | rest_mops_cell
  | rest_jops_cell
deriving DecidableEq, Repr

/-- The `assign_advice_from_constant` calls performed by `EventTableChip::init`
(circuits/etable/assign.rs lines 67-79) at the row one past the last step
block: the rest-mops cell is pinned to zero; the corresponding rest-jops
assignment is commented out in the source. -/
def etable_init_terminal_constants : List (EtableCell × Nat) :=
  [(EtableCell.rest_mops_cell, 0)]

/-- The four per-opcode cursor predicates consulted by
`EventTableChip::assign_entries` (circuits/etable/assign.rs lines 297-308);
they live in the opcode-config registry outside the corpus and are taken as a
function parameter. -/
structure IOCursorFlags where
  is_host_public_input : Bool
  is_context_input_op : Bool
  is_context_output_op : Bool
  is_external_host_call : Bool

/-- The four I/O cursors threaded through `EventTableChip::assign_entries`. -/
structure IOCursors where
  input_index : Nat
  context_input_index : Nat
  context_output_index : Nat
  external_host_call_index : Nat
deriving DecidableEq, Repr

/-- The cursor start values (circuits/etable/assign.rs lines 190-193). -/
def initialCursors (s : InitializationState) : IOCursors :=
  { input_index := s.input_index
    context_input_index := s.context_input_index
    context_output_index := s.context_output_index
    external_host_call_index := s.external_host_call_index }

/-- The cursor updates after one step (circuits/etable/assign.rs lines
297-308): each cursor advances by one exactly when its predicate accepts the
entry. -/
def advance_cursors (flags : EtableEntry → IOCursorFlags) (c : IOCursors)
    (e : EtableEntry) : IOCursors :=
  { input_index := c.input_index + (if (flags e).is_host_public_input then 1 else 0)
    context_input_index :=
      c.context_input_index + (if (flags e).is_context_input_op then 1 else 0)
    context_output_index :=
      c.context_output_index + (if (flags e).is_context_output_op then 1 else 0)
    external_host_call_index :=
      c.external_host_call_index + (if (flags e).is_external_host_call then 1 else 0) }

/-- The cursor values assigned row by row by `EventTableChip::assign_entries`:
each step row receives the values before its own update, and the terminal row
(circuits/etable/assign.rs lines 330-336) receives the final values. -/
def cursor_columns (flags : EtableEntry → IOCursorFlags)
    (s : InitializationState) (l : List EtableEntry) : List IOCursors :=
  l.scanl (advance_cursors flags) (initialCursors s)

/-- Modelled from the spec: `EVENT_TABLE_ENTRY_ROWS` is declared in
crates/zkwasm/src/circuits/etable/mod.rs, which is absent from the corpus.
The spec (§4.6) measures the slicer capacity "in event-row-block units", i.e.
as a maximal number of events per slice, and partitions "into chunks of
`(capacity − 1)` events each"; the chunked list holds one entry per
event-row-block unit, so the unit size is 1. -/
def EVENT_TABLE_ENTRY_ROWS : Nat := 1

/-- The `InitializationState` variant used by continuation/slice.rs (that file
names the counter field `rest_jops` and carries an `is_very_first_step` flag). -/
structure SliceInitializationState where
  eid : Nat
  fid : Nat
  iid : Nat
  frame_id : Nat
  sp : Nat
  initial_memory_pages : Nat
  rest_jops : Nat
  is_very_first_step : Bool
deriving DecidableEq, Repr

/-- The structural worker for `chunkList`: the fuel argument bounds the number
of produced chunks (any fuel at least the list length is enough, since every
step consumes at least one element). -/
def chunksGo (n : Nat) : Nat → List α → List (List α)
  | _, [] => []
  | 0, _ :: _ => []
  | fuel + 1, x :: xs => (x :: xs).take n :: chunksGo n fuel ((x :: xs).drop n)

/-- Rust's slice `chunks`: split a list into consecutive chunks of `n`
elements, the last one possibly shorter.  (`chunks` panics on `n = 0`; that
dead case returns `[]` here.) -/
def chunkList (n : Nat) (l : List α) : List (List α) :=
  match n with
  | 0 => []
  | n + 1 => chunksGo (n + 1) l.length l

/-- One step of the boundary-duplication loop of `Slices::from_table`
(continuation/slice.rs lines 45-48): `etable_slices[index].insert(0,
etable_slices[index - 1].last().unwrap().clone())`.  (`last().unwrap()` on an
empty previous chunk is a dead case for chunks produced by `chunkList`; it
prepends nothing here.) -/
def prepend_boundary (prev c : List α) : List α :=
  match prev.getLast? with
  | some x => x :: c
  | none => c

/-- The boundary-duplication loop of `Slices::from_table`, tail: prepend to
each chunk the last element of the previously processed chunk. -/
def prependLastsGo (prev : List α) : List (List α) → List (List α)
  | [] => []
  | c :: cs =>
    prepend_boundary prev c :: prependLastsGo (prepend_boundary prev c) cs

/-- The boundary-duplication loop of `Slices::from_table`: chunk 0 is kept,
every later chunk gets a copy of the previous chunk's last event prepended. -/
def prependLasts : List (List α) → List (List α)
  | [] => []
  | c :: cs => c :: prependLastsGo c cs

/-- `Slice::update_rest_jops` (continuation/slice.rs lines 17-21): subtract the
jump-op cost of every entry of the slice's event table from the running
counter.  `Nat` subtraction stands in for the `u32 -=`. -/
def update_rest_jops (jops : Opcode → Nat) (restJops : Nat)
    (es : List EtableEntry) : Nat :=
  es.foldl (fun r e => r - jops e.opcode) restJops

/-- The running `rest_jops` counter value just before slice `k` is built: the
initial counter decreased by the jump-op costs of the first `k` chunks
(`Slice::update_rest_jops` applied once per earlier slice). -/
def rest_jops_after (jops : Opcode → Nat) :
    Nat → Nat → List (List EtableEntry) → Nat
  | restJops, 0, _ => restJops
  | restJops, _ + 1, [] => restJops
  | restJops, k + 1, es :: rest =>
    rest_jops_after jops (update_rest_jops jops restJops es) k rest

/-- The `InitializationState` a later slice derives from its first (duplicated
boundary) event (continuation/slice.rs lines 72-81). -/
def deriveSliceState (f : EtableEntry) (restJops : Nat) :
    SliceInitializationState :=
  { eid := f.eid
    fid := f.fid
    iid := f.iid
    frame_id := f.last_jump_eid
    sp := f.sp
    initial_memory_pages := f.allocated_memory_pages
    rest_jops := restJops
    is_very_first_step := false }

/-- The enumerated map of `Slices::from_table` (continuation/slice.rs lines
51-95) over the prepared chunks: slice 0 keeps the genesis state, slice `k > 0`
derives its state from its first entry plus the threaded `rest_jops` counter,
and after each slice the counter is decreased by that slice's jump-op costs.
The compilation tables cloned into every slice are claim-irrelevant and left
out; each produced slice is its initialization state plus its event chunk. -/
def buildSlices (jops : Opcode → Nat) (genesis : SliceInitializationState) :
    Nat → Nat → List (List EtableEntry) →
    List (SliceInitializationState × List EtableEntry)
  | _, _, [] => []
  | restJops, idx, es :: rest =>
    let st :=
      if idx = 0 then genesis
      else
        match es.head? with
        | some f => deriveSliceState f restJops
        | none => genesis
    (st, es) :: buildSlices jops genesis (update_rest_jops jops restJops es) (idx + 1) rest

/-- `Slices::from_table` (continuation/slice.rs lines 32-98): chunk the event
table into `(capability − 1) * EVENT_TABLE_ENTRY_ROWS`-entry chunks, duplicate
each boundary event into the next chunk, then build the slices threading the
`rest_jops` counter.  `jops` is `Opcode::jops()` (specs/src/itable.rs, outside
the corpus), taken as a parameter. -/
def from_table (jops : Opcode → Nat) (genesis : SliceInitializationState)
    (entries : List EtableEntry) (capability : Nat) :
    List (SliceInitializationState × List EtableEntry) :=
  buildSlices jops genesis genesis.rest_jops 0
    (prependLasts (chunkList ((capability - 1) * EVENT_TABLE_ENTRY_ROWS) entries))

/-- `BitTableOp` from circuits/bit_table/mod.rs as used by the filter. -/
inductive BitTableOp where
  | BinaryBit (cls : BitOpClass)
  | Popcnt
deriving DecidableEq, Repr

/-- `BitTableAssign` from circuits/bit_table/assign.rs. -/
structure BitTableAssign where
  op : BitTableOp
  left : Nat
  right : Nat
  result : Nat
deriving DecidableEq, Repr

/-- Rust `x as u32 as u64` on an `i32` value: the low 32 bits, two's
complement. -/
def i32_as_u32_as_u64 (x : Int) : Nat := (x % (2 : Int) ^ 32).toNat

/-- Rust `x as u64` on an `i64` value: the low 64 bits, two's complement. -/
def i64_as_u64 (x : Int) : Nat := (x % (2 : Int) ^ 64).toNat

/-- `filter_bit_table_entries` (circuits/bit_table/assign.rs lines 22-65):
keep exactly the 32-bit bitwise, 64-bit bitwise and population-count steps. -/
def filter_bit_table_entries (l : List EtableEntry) : List BitTableAssign :=
  l.filterMap (fun entry =>
    match entry.step_info with
    | StepInfo.I32BinBitOp cls left right value =>
      some
        { op := BitTableOp.BinaryBit cls
          left := i32_as_u32_as_u64 left
          right := i32_as_u32_as_u64 right
          result := i32_as_u32_as_u64 value }
    | StepInfo.I64BinBitOp cls left right value =>
      some
        { op := BitTableOp.BinaryBit cls
          left := i64_as_u64 left
          right := i64_as_u64 right
          result := i64_as_u64 value }
    | StepInfo.UnaryOp UnaryOpClass.Popcnt operand =>
      some
        { op := BitTableOp.Popcnt
          left := operand
          right := 0
          result := operand }
    | _ => none)

/-- The four little-endian bytes of a 32-bit value. -/
def u32_le_bytes (x : Nat) : List Nat :=
  [x % 256, x / 256 % 256, x / 2 ^ 16 % 256, x / 2 ^ 24 % 256]

/-- `BitTableChip::assign_u64_le` (circuits/bit_table/assign.rs lines 165-207)
as the list of `(row offset, value)` advice assignments it performs in one
column: the 64-bit value at offset 0, the low 32 bits at offset 1 followed by
their four little-endian bytes at offsets 2-5, the high 32 bits at offset 6
followed by their bytes at offsets 7-10. -/
def assign_u64_le (value : Nat) : List (Nat × Nat) :=
  let low := value % 2 ^ 32
  let high := value / 2 ^ 32 % 2 ^ 32
  (0, value) ::
    (((1, low) :: (u32_le_bytes low).enum.map (fun p => (2 + p.1, p.2))) ++
      ((6, high) :: (u32_le_bytes high).enum.map (fun p => (7 + p.1, p.2))))

/-- The eight little-endian bytes of a 64-bit value (Rust `to_le_bytes`). -/
def u64_le_bytes (x : Nat) : List Nat :=
  [x % 256, x / 2 ^ 8 % 256, x / 2 ^ 16 % 256, x / 2 ^ 24 % 256,
   x / 2 ^ 32 % 256, x / 2 ^ 40 % 256, x / 2 ^ 48 % 256, x / 2 ^ 56 % 256]

/-- `u8::count_ones`: the population count of one byte. -/
def count_ones8 (b : Nat) : Nat :=
  b % 2 + b / 2 % 2 + b / 4 % 2 + b / 8 % 2 + b / 16 % 2 + b / 32 % 2 +
    b / 64 % 2 + b / 128 % 2

/-- `BitTableChip::assign_u64_popcnt` (circuits/bit_table/assign.rs lines
114-163) as its `(row offset, value)` assignments: per-byte and per-half
partial population counts in the same row layout as `assign_u64_le`.  The
`u64::count_ones` of the whole value at offset 0 is embedded as the sum of
the byte popcounts (equal for values below 2^64). -/
def assign_u64_popcnt (value : Nat) : List (Nat × Nat) :=
  let bytes := u64_le_bytes value
  let low_u32 := ((bytes.take 4).map count_ones8).sum
  let high_u32 := ((bytes.drop 4).map count_ones8).sum
  (0, (bytes.map count_ones8).sum) ::
    (((1, low_u32) ::
        ((bytes.take 4).map count_ones8).enum.map (fun p => (2 + p.1, p.2))) ++
      ((6, high_u32) ::
        ((bytes.drop 4).map count_ones8).enum.map (fun p => (7 + p.1, p.2))))

/-- The three column sections written for one accepted entry by
`BitTableChip::assign_entries` (circuits/bit_table/assign.rs lines 216-227):
the left and right columns always get the little-endian decomposition, the
result column gets the popcnt variant exactly for population-count entries. -/
def bit_table_block (e : BitTableAssign) :
    List (Nat × Nat) × List (Nat × Nat) × List (Nat × Nat) :=
  (assign_u64_le e.left, assign_u64_le e.right,
    if e.op = BitTableOp.Popcnt then assign_u64_popcnt e.result
    else assign_u64_le e.result)

/-- The encoder tags of `ImageTableEncoder` (specs/src/encode/image_table.rs,
outside the corpus): each sub-table's values carry a distinct tag. -/
inductive ImageTableTag where
  | Instruction
  | BrTable
  | InitMemory
deriving DecidableEq, Repr

/-- `msg_of_instruction_table` (circuits/image_table/mod.rs lines 70-84): a
tagged zero sentinel cell followed by the tagged encodings of the instruction
entries.  `enc` models `ImageTableEncoder::<tag>.encode`; the entries arrive
already reduced to their `encode()` values. -/
def msg_of_instruction_table (enc : ImageTableTag → Nat → Nat)
    (itable : List Nat) : List Nat :=
  enc ImageTableTag.Instruction 0 :: itable.map (enc ImageTableTag.Instruction)

/-- `msg_of_br_table` (circuits/image_table/mod.rs lines 86-102): sentinel,
then the br-table entries, then the elem-table entries, all tagged. -/
def msg_of_br_table (enc : ImageTableTag → Nat → Nat)
    (br elem : List Nat) : List Nat :=
  enc ImageTableTag.BrTable 0 ::
    (br.map (enc ImageTableTag.BrTable) ++ elem.map (enc ImageTableTag.BrTable))

/-- `msg_of_init_memory_table` (circuits/image_table/mod.rs lines 104-121):
sentinel, then the heap entries followed by the global entries, tagged. -/
def msg_of_init_memory_table (enc : ImageTableTag → Nat → Nat)
    (heap global : List Nat) : List Nat :=
  enc ImageTableTag.InitMemory 0 :: (heap ++ global).map (enc ImageTableTag.InitMemory)

/-- The unpadded cell sequence built by `msg_of_image_table`: the three
sub-tables concatenated. -/
def image_table_cells (enc : ImageTableTag → Nat → Nat)
    (itable br elem heap global : List Nat) : List Nat :=
  msg_of_instruction_table enc itable ++ msg_of_br_table enc br elem ++
    msg_of_init_memory_table enc heap global

/-- `msg_of_image_table` (circuits/image_table/mod.rs lines 123-140): the
concatenated sub-tables padded with zero cells by
`for _ in cells.len()..max_image_table_rows()` — an empty loop (no padding and
no error) whenever the cell count already exceeds the capacity.
`max_image_table_rows()` comes from circuits/config.rs (outside the corpus) and
is a parameter. -/
def msg_of_image_table (maxRows : Nat) (enc : ImageTableTag → Nat → Nat)
    (itable br elem heap global : List Nat) : List Nat :=
  let cells := image_table_cells enc itable br elem heap global
  cells ++ List.replicate (maxRows - cells.length) 0

/-! Concrete instances used to evaluate the embedded functions on explicit
inputs. -/

/-- A write of value 7 to heap offset 0 at execution id 3. -/
def cexWriteEntry : MemoryTableEntry :=
  { eid := 3, emid := 1, offset := 0, ltype := LocationType.Heap,
    atype := AccessType.Write, vtype := 0, is_mutable := true, value := 7 }

/-- A read of heap offset 0 at execution id 5, after `cexWriteEntry`. -/
def cexReadEntry : MemoryTableEntry :=
  { eid := 5, emid := 1, offset := 0, ltype := LocationType.Heap,
    atype := AccessType.Read, vtype := 0, is_mutable := true, value := 7 }

/-- An initial-memory row for heap offset 0 with value 0. -/
def cexInitMem : InitMemoryEntry :=
  { ltype := LocationType.Heap, offset := 0, is_mutable := true, vtype := 0, value := 0 }

/-- A read of heap offset 0 with value type 0. -/
def cexRead32 : MemoryTableEntry :=
  { eid := 2, emid := 1, offset := 0, ltype := LocationType.Heap,
    atype := AccessType.Read, vtype := 0, is_mutable := true, value := 0 }

/-- A read of the same heap offset 0 with the other value type 1. -/
def cexRead64 : MemoryTableEntry :=
  { eid := 4, emid := 1, offset := 0, ltype := LocationType.Heap,
    atype := AccessType.Read, vtype := 1, is_mutable := true, value := 0 }

/-- The i-th event of a synthetic trace (execution ids start at 1). -/
def traceEntry (i : Nat) : EtableEntry :=
  { eid := i + 1, fid := 0, iid := 0, opcode := Opcode.Other 0, sp := 0,
    last_jump_eid := 0, allocated_memory_pages := 0, step_info := StepInfo.Other 0 }

/-- A 250-event synthetic trace. -/
def trace250 : List EtableEntry := (List.range 250).map traceEntry

/-- A 5-event synthetic trace. -/
def trace5 : List EtableEntry := (List.range 5).map traceEntry

/-- A concrete genesis state for the slicer. -/
def sliceGenesis : SliceInitializationState :=
  { eid := 1, fid := 0, iid := 0, frame_id := 0, sp := 4095,
    initial_memory_pages := 1, rest_jops := 1000, is_very_first_step := true }

/-- A concrete jump-op cost assignment: every opcode costs 1. -/
def unitJops : Opcode → Nat := fun _ => 1

/-- A concrete event whose step is a 64-bit bitwise AND:
0x0123456789ABCDEF AND 0x00000000FFFFFFFF = 0x0000000089ABCDEF. -/
def andEntry : EtableEntry :=
  { traceEntry 0 with
    step_info := StepInfo.I64BinBitOp BitOpClass.And 81985529216486895 4294967295 2309737967 }

/-- A concrete event ending a trace with `Return { drop: 2 }` at sp 10. -/
def retEntry : EtableEntry :=
  { traceEntry 0 with opcode := Opcode.Ret 2, sp := 10 }

/-- Concrete cursor predicates: host-input on even execution ids, context-input
always, context-output never, external-host-call on execution id 1. -/
def cexCursorFlags (e : EtableEntry) : IOCursorFlags :=
  { is_host_public_input := e.eid % 2 == 0
    is_context_input_op := true
    is_context_output_op := false
    is_external_host_call := e.eid == 1 }

/-- A concrete initialization state. -/
def cexInitState : InitializationState :=
  { eid := 1, fid := 2, iid := 0, frame_id := 0, sp := 4095,
    initial_memory_pages := 1, maximal_memory_pages := 10, input_index := 1,
    context_input_index := 1, context_output_index := 1,
    external_host_call_index := 1, jops := 0 }

/-- A concrete image-table tag encoder (the identity on the value part). -/
def cexEnc : ImageTableTag → Nat → Nat := fun _ v => v

/-! Helper lemmas. -/

theorem init_values_eq_none_iff (imtable : List InitMemoryEntry)
    (l : List MemoryTableEntry) :
    init_values imtable l = none ↔
      ∃ e ∈ l, init_value_of_entry imtable e = none := by
  induction l with
  | nil => simp [init_values]
  | cons a l ih =>
    rcases h1 : init_value_of_entry imtable a with _ | b <;>
      rcases h2 : init_values imtable l with _ | bs <;>
        simp [init_values, h1, h2, ih.symm]

theorem init_values_eq_some_cons (imtable : List InitMemoryEntry)
    (a : MemoryTableEntry) (l : List MemoryTableEntry) (bs : List (Option Nat)) :
    init_values imtable (a :: l) = some bs ↔
      ∃ b tl, init_value_of_entry imtable a = some b ∧
        init_values imtable l = some tl ∧ bs = b :: tl := by
  rcases h1 : init_value_of_entry imtable a with _ | b <;>
    rcases h2 : init_values imtable l with _ | tl <;>
      simp [init_values, h1, h2, eq_comm]

theorem zip_filterMap_inits (imtable : List InitMemoryEntry) :
    ∀ (l : List MemoryTableEntry) (bs : List (Option Nat)),
      init_values imtable l = some bs →
      (l.zip bs).filterMap mk_init_entry = direct_inits imtable l := by
  intro l
  induction l with
  | nil =>
    intro bs h
    simp [init_values] at h
    subst h
    simp [direct_inits]
  | cons a l ih =>
    intro bs h
    rw [init_values_eq_some_cons] at h
    obtain ⟨b, tl, hfa, htl, rfl⟩ := h
    simp only [List.zip_cons_cons, List.filterMap_cons, direct_inits,
      List.filterMap_cons] at *
    rw [hfa]
    simp only [Option.some_bind]
    cases b with
    | none => simpa [mk_init_entry] using ih tl htl
    | some v => simpa [mk_init_entry] using ih tl htl

theorem create_memory_table_eq_some (imtable : List InitMemoryEntry)
    (l r : List MemoryTableEntry)
    (h : create_memory_table imtable l = some r) :
    r = List.insertionSort memLe (l ++ (direct_inits imtable l).dedup) := by
  unfold create_memory_table at h
  rcases hm : init_values imtable l with _ | bs
  · rw [hm] at h
    simp at h
  · rw [hm] at h
    simp only [Option.map_some', Option.some_inj] at h
    rw [← h, zip_filterMap_inits imtable l bs hm]

theorem init_value_of_entry_eq_none_iff (imtable : List InitMemoryEntry)
    (e : MemoryTableEntry) :
    init_value_of_entry imtable e = none ↔
      (e.ltype = LocationType.Heap ∨ e.ltype = LocationType.Global) ∧
        try_find imtable e.ltype e.offset = none := by
  unfold init_value_of_entry
  split
  · rename_i hc
    rcases h : try_find imtable e.ltype e.offset with _ | r <;> simp [h, hc]
  · rename_i hc
    simp [hc]

theorem mem_direct_inits_shape (imtable : List InitMemoryEntry)
    (l : List MemoryTableEntry) (x : MemoryTableEntry)
    (hx : x ∈ direct_inits imtable l) :
    x.eid = 0 ∧ x.emid = 0 ∧ x.atype = AccessType.Init := by
  unfold direct_inits at hx
  rw [List.mem_filterMap] at hx
  obtain ⟨e, _, he⟩ := hx
  rcases h1 : init_value_of_entry imtable e with _ | iv
  · rw [h1] at he
    simp at he
  · rw [h1] at he
    rcases iv with _ | v
    · simp at he
    · simp only [Option.some_bind, Option.map_some', Option.some_inj] at he
      subst he
      simp [init_entry_of]

theorem lexLe4_total (a b : Nat × Nat × Nat × Nat) : lexLe4 a b ∨ lexLe4 b a := by
  obtain ⟨a1, a2, a3, a4⟩ := a
  obtain ⟨b1, b2, b3, b4⟩ := b
  unfold lexLe4
  simp only
  omega

theorem lexLe4_trans (a b c : Nat × Nat × Nat × Nat)
    (h1 : lexLe4 a b) (h2 : lexLe4 b c) : lexLe4 a c := by
  obtain ⟨a1, a2, a3, a4⟩ := a
  obtain ⟨b1, b2, b3, b4⟩ := b
  obtain ⟨c1, c2, c3, c4⟩ := c
  unfold lexLe4 at *
  simp only at *
  omega

instance : IsTotal MemoryTableEntry memLe :=
  ⟨fun a b => lexLe4_total (memKey a) (memKey b)⟩

instance : IsTrans MemoryTableEntry memLe :=
  ⟨fun a b c => lexLe4_trans (memKey a) (memKey b) (memKey c)⟩

theorem countP_eq_one_of_all_eq {α : Type} (p : α → Bool) (l : List α) (v : α)
    (hn : l.Nodup) (hall : ∀ x ∈ l, p x = true → x = v) (hv : v ∈ l)
    (hpv : p v = true) : l.countP p = 1 := by
  rw [List.countP_eq_length_filter]
  have hvf : v ∈ l.filter p := List.mem_filter.mpr ⟨hv, hpv⟩
  have hallf : ∀ x ∈ l.filter p, x = v := by
    intro x hx
    obtain ⟨hx1, hx2⟩ := List.mem_filter.mp hx
    exact hall x hx1 hx2
  have hnf : (l.filter p).Nodup := hn.filter p
  rcases hf : l.filter p with _ | ⟨x, _ | ⟨y, t⟩⟩
  · rw [hf] at hvf
    simp at hvf
  · rfl
  · rw [hf] at hallf hnf
    have hx : x = v := hallf x (by simp)
    have hy : y = v := hallf y (by simp)
    rw [List.nodup_cons] at hnf
    exact absurd (by simp [hx, hy] : x ∈ y :: t) hnf.1

/-! Claim C2: failure policy of the memory-consistency builder. -/

/-- C2 counterexample: a Write to heap offset 0 at execution id 3 strictly
precedes the first Read of that offset at execution id 5, yet — with no
matching InitMemoryEntry — `create_memory_table` still fails fatally; the
claim says an access with a prior Write before its first Read does not fail. -/
theorem C2_counterexample :
    create_memory_table [] [cexWriteEntry, cexReadEntry] = none ∧
      cexWriteEntry.atype = AccessType.Write ∧
      cexReadEntry.atype = AccessType.Read ∧
      cexWriteEntry.offset = cexReadEntry.offset ∧
      cexWriteEntry.eid < cexReadEntry.eid := by
  exact ⟨rfl, rfl, rfl, rfl, by decide⟩

/-- C2 (amended): during `Tables::create_memory_table` the construction fails
(the fatal `MissingInitValue` error) exactly when some Heap or Global access
has no matching InitMemoryEntry — regardless of any prior Write to that
offset; in particular a run in which every accessed heap/global offset has a
matching InitMemoryEntry does not fail. -/
theorem C2_missing_init_value :
    ∀ (imtable : List InitMemoryEntry) (l : List MemoryTableEntry),
      create_memory_table imtable l = none ↔
        ∃ e ∈ l, (e.ltype = LocationType.Heap ∨ e.ltype = LocationType.Global) ∧
          try_find imtable e.ltype e.offset = none := by
  intro imtable l
  unfold create_memory_table
  rw [Option.map_eq_none', init_values_eq_none_iff]
  constructor
  · rintro ⟨e, he, hn⟩
    exact ⟨e, he, (init_value_of_entry_eq_none_iff imtable e).mp hn⟩
  · rintro ⟨e, he, hn⟩
    exact ⟨e, he, (init_value_of_entry_eq_none_iff imtable e).mpr hn⟩

/-! Claim C3: Init uniqueness per accessed location. -/

/-- C3 counterexample: two reads of heap offset 0 that differ only in their
value type produce two distinct synthesized Init rows for the same
`(location_kind, offset)` pair — the `HashSet` deduplication keys on the full
entry, so the claimed exactly-one-Init-per-pair invariant fails. -/
theorem C3_counterexample :
    (create_memory_table [cexInitMem] [cexRead32, cexRead64]).map
        (fun r => r.countP (fun e =>
          e.atype == AccessType.Init && e.ltype == LocationType.Heap &&
            e.offset == 0)) = some 2 ∧
      cexRead32.ltype = LocationType.Heap ∧ cexRead32.offset = 0 ∧
      cexRead64.ltype = LocationType.Heap ∧ cexRead64.offset = 0 := by
  exact ⟨by decide, rfl, rfl, rfl, rfl⟩

/-- C3 (amended): in the ordered memory table, every accessed Heap/Global
`(location_kind, offset)` pair has exactly one Init-kind entry provided all
accesses to that location agree on value type and mutability (deduplication
keys on the full entry, so agreement on every field is what collapses the
repeated synthesized rows to one). -/
theorem C3_init_uniqueness :
    ∀ (imtable : List InitMemoryEntry) (l r : List MemoryTableEntry)
      (lt : LocationType) (off : Nat),
      create_memory_table imtable l = some r →
      (lt = LocationType.Heap ∨ lt = LocationType.Global) →
      (∀ e ∈ l, e.atype ≠ AccessType.Init) →
      (∃ e ∈ l, e.ltype = lt ∧ e.offset = off) →
      (∀ e ∈ l, ∀ e2 ∈ l, e.ltype = lt → e.offset = off → e2.ltype = lt →
        e2.offset = off → e.vtype = e2.vtype ∧ e.is_mutable = e2.is_mutable) →
      r.countP (fun e =>
        e.atype == AccessType.Init && e.ltype == lt && e.offset == off) = 1 := by
  intro imtable l r lt off hr hlt hnoinit hacc hagree
  obtain ⟨e0, he0, he0lt, he0off⟩ := hacc
  set p : MemoryTableEntry → Bool := fun e =>
    e.atype == AccessType.Init && e.ltype == lt && e.offset == off with hp
  -- every heap/global lookup succeeded, in particular the one for (lt, off)
  have hfind : ∃ r0, try_find imtable lt off = some r0 := by
    rcases hf : try_find imtable lt off with _ | r0
    · exfalso
      have hnone : init_value_of_entry imtable e0 = none := by
        rw [init_value_of_entry_eq_none_iff]
        rw [he0lt, he0off]
        exact ⟨hlt, hf⟩
      have : create_memory_table imtable l = none := by
        unfold create_memory_table
        rw [Option.map_eq_none', init_values_eq_none_iff]
        exact ⟨e0, he0, hnone⟩
      rw [hr] at this
      exact Option.noConfusion this
    · exact ⟨r0, rfl⟩
  obtain ⟨r0, hr0⟩ := hfind
  have hchar := create_memory_table_eq_some imtable l r hr
  -- the canonical Init row for this location
  set x0 : MemoryTableEntry := init_entry_of e0 r0.2.2 with hx0
  have hive0 : init_value_of_entry imtable e0 = some (some r0.2.2) := by
    unfold init_value_of_entry
    rw [he0lt, he0off, if_pos hlt, hr0]
    rfl
  have hx0mem : x0 ∈ direct_inits imtable l := by
    unfold direct_inits
    rw [List.mem_filterMap]
    exact ⟨e0, he0, by rw [hive0]; rfl⟩
  -- every Init row of the deduplicated list matching (lt, off) equals x0
  have hall : ∀ x ∈ (direct_inits imtable l).dedup, p x = true → x = x0 := by
    intro x hx hpx
    rw [List.mem_dedup] at hx
    unfold direct_inits at hx
    rw [List.mem_filterMap] at hx
    obtain ⟨e, he, hee⟩ := hx
    rcases hiv : init_value_of_entry imtable e with _ | iv
    · rw [hiv] at hee
      exact Option.noConfusion hee
    rcases iv with _ | v
    · rw [hiv] at hee
      exact Option.noConfusion hee
    rw [hiv] at hee
    simp only [Option.some_bind, Option.map_some', Option.some_inj] at hee
    subst hee
    have hplt : e.ltype = lt := by
      have := hpx
      simp only [hp, init_entry_of, Bool.and_eq_true, beq_iff_eq] at this
      exact this.1.2
    have hpoff : e.offset = off := by
      have := hpx
      simp only [hp, init_entry_of, Bool.and_eq_true, beq_iff_eq] at this
      exact this.2
    have hv : v = r0.2.2 := by
      unfold init_value_of_entry at hiv
      rw [hplt, hpoff, if_pos hlt, hr0] at hiv
      simp only [Option.map_some', Option.some_inj] at hiv
      exact hiv.symm
    obtain ⟨hvt, hmut⟩ := hagree e he e0 he0 hplt hpoff he0lt he0off
    rw [hx0]
    unfold init_entry_of
    rw [hv, hplt, hpoff, hvt, hmut, he0lt, he0off]
  have hx0p : p x0 = true := by
    simp [hp, hx0, init_entry_of, he0lt, he0off]
  have hdedup1 : ((direct_inits imtable l).dedup).countP p = 1 :=
    countP_eq_one_of_all_eq p _ x0 (List.nodup_dedup _) hall
      (List.mem_dedup.mpr hx0mem) hx0p
  have hl0 : l.countP p = 0 := by
    rw [List.countP_eq_zero]
    intro e he
    simp only [hp, Bool.and_eq_true, beq_iff_eq]
    exact fun h => absurd h.1.1 (hnoinit e he)
  calc r.countP p
      = (l ++ (direct_inits imtable l).dedup).countP p := by
        rw [hchar]
        exact (List.perm_insertionSort memLe _).countP_eq p
    _ = l.countP p + ((direct_inits imtable l).dedup).countP p :=
        List.countP_append p _ _
    _ = 1 := by rw [hl0, hdedup1]

/-- C3 amended-claim witness: a single read of heap offset 0 (all accesses
trivially agree) yields exactly one Init row for `(Heap, 0)`. -/
theorem C3_init_uniqueness_witness :
    ((create_memory_table [cexInitMem] [cexRead32]).getD []).countP
      (fun e => e.atype == AccessType.Init && e.ltype == LocationType.Heap &&
        e.offset == 0) = 1 := by
  exact C3_init_uniqueness [cexInitMem] [cexRead32]
    ((create_memory_table [cexInitMem] [cexRead32]).getD [])
    LocationType.Heap 0 (by decide) (Or.inl rfl) (by decide)
    ⟨cexRead32, by decide, rfl, rfl⟩ (by decide)

/-! Claim C10: synthesized Init rows precede the real accesses after the
final sort. -/

/-- C10: every synthesized Init row carries execution id 0 and sub-id 0 while
the genesis InitializationState starts execution ids at 1; consequently, in
the sorted table returned by `create_memory_table`, the Init entry of a
location strictly precedes every Read/Write entry of that location whenever
the real access events all carry execution ids at least 1. -/
theorem C10_init_precedes_accesses :
    (∀ stackLimit fid ip mp,
      (genesisInitializationState stackLimit fid ip mp).eid = 1) ∧
    (∀ (imtable : List InitMemoryEntry) (l : List MemoryTableEntry)
      (x : MemoryTableEntry), x ∈ direct_inits imtable l →
        x.eid = 0 ∧ x.emid = 0 ∧ x.atype = AccessType.Init) ∧
    ∀ (imtable : List InitMemoryEntry) (l r : List MemoryTableEntry)
      (i j : Nat) (a b : MemoryTableEntry),
      create_memory_table imtable l = some r →
      (∀ e ∈ l, 1 ≤ e.eid) →
      (∀ e ∈ l, e.atype ≠ AccessType.Init) →
      r.get? i = some a → r.get? j = some b →
      a.atype = AccessType.Init → b.atype ≠ AccessType.Init →
      a.ltype = b.ltype → a.offset = b.offset →
      i < j := by
  refine ⟨fun _ _ _ _ => rfl, mem_direct_inits_shape, ?_⟩
  intro imtable l r i j a b hr h1 h0 hi hj hainit hbacc hlt hoff
  have hchar := create_memory_table_eq_some imtable l r hr
  have hperm : r.Perm (l ++ (direct_inits imtable l).dedup) := by
    rw [hchar]
    exact List.perm_insertionSort memLe _
  have hsorted : r.Sorted memLe := by
    rw [hchar]
    exact List.sorted_insertionSort memLe _
  obtain ⟨hilen, hia⟩ := List.get?_eq_some.mp hi
  obtain ⟨hjlen, hjb⟩ := List.get?_eq_some.mp hj
  -- a is a synthesized Init row, so its key has eid 0, emid 0
  have hamem : a ∈ l ++ (direct_inits imtable l).dedup :=
    hperm.mem_iff.mp (hia ▸ List.get_mem r i hilen)
  have ha0 : a.eid = 0 ∧ a.emid = 0 := by
    rcases List.mem_append.mp hamem with h | h
    · exact absurd hainit (h0 a h)
    · have := mem_direct_inits_shape imtable l a (List.mem_dedup.mp h)
      exact ⟨this.1, this.2.1⟩
  -- b is a real access, so its eid is at least 1
  have hbmem : b ∈ l ++ (direct_inits imtable l).dedup :=
    hperm.mem_iff.mp (hjb ▸ List.get_mem r j hjlen)
  have hb1 : 1 ≤ b.eid := by
    rcases List.mem_append.mp hbmem with h | h
    · exact h1 b h
    · have := mem_direct_inits_shape imtable l b (List.mem_dedup.mp h)
      exact absurd this.2.2 hbacc
  by_contra hij
  push_neg at hij
  rcases Nat.lt_or_ge j i with hji | hji
  · have hrel : memLe (r.get ⟨j, hjlen⟩) (r.get ⟨i, hilen⟩) :=
      hsorted.rel_get_of_lt (by exact hji)
    rw [hia, hjb] at hrel
    unfold memLe lexLe4 memKey at hrel
    rw [hlt, hoff] at hrel
    simp only at hrel
    omega
  · have hij2 : i = j := by omega
    rw [hij2, hj] at hi
    have : a = b := (Option.some_inj.mp hi).symm
    rw [this] at hainit
    exact absurd hainit hbacc

/-- C10 witness: on the concrete one-read table for heap offset 0, the Init
row sits at index 0 and the Read at index 1. -/
theorem C10_init_precedes_accesses_witness :
    (genesisInitializationState 4096 2 1 10).eid = 1 ∧ (0 : Nat) < 1 := by
  constructor
  · exact C10_init_precedes_accesses.1 4096 2 1 10
  · exact C10_init_precedes_accesses.2.2 [cexInitMem] [cexRead32]
      ((create_memory_table [cexInitMem] [cexRead32]).getD []) 0 1
      (((create_memory_table [cexInitMem] [cexRead32]).getD []).getD 0 cexRead32)
      (((create_memory_table [cexInitMem] [cexRead32]).getD []).getD 1 cexRead32)
      (by decide) (by decide) (by decide) (by decide) (by decide)
      (by decide) (by decide) (by decide) (by decide)

/-! Claim C5: the terminal status row of the event-table encoder. -/

/-- C5: for a non-empty event table whose last step is a `Return { drop }`,
the encoder appends one terminal status row with execution id `last.eid + 1`,
zero function/instruction ids and stack pointer `last.sp + drop`; when the
last step is not a Return the encoding dies fatally (the `unreachable!()`
standing for `MalformedTerminalTrace`). -/
theorem C5_terminal_row :
    ∀ (l : List EtableEntry) (last : EtableEntry), l.getLast? = some last →
      (∀ d, last.opcode = Opcode.Ret d →
        status_list l = some (l.map entry_status ++
          [{ eid := last.eid + 1
             fid := 0
             iid := 0
             sp := last.sp + d
             last_jump_eid := 0
             allocated_memory_pages := last.allocated_memory_pages }])) ∧
      ((∀ d, last.opcode ≠ Opcode.Ret d) → status_list l = none) := by
  intro l last hlast
  constructor
  · intro d hd
    simp [status_list, terminate_status, hlast, hd]
  · intro hd
    rcases hop : last.opcode with d | t
    · exact absurd hop (hd d)
    · simp [status_list, terminate_status, hlast, hop]

/-- C5 witness: a one-step trace ending in `Return { drop: 2 }` at sp 10 gets
the terminal row `(eid 2, fid 0, iid 0, sp 12)`; a one-step trace ending in a
non-Return opcode fails. -/
theorem C5_terminal_row_witness :
    status_list [retEntry] = some
      [{ eid := 1, fid := 0, iid := 0, sp := 10, last_jump_eid := 0,
         allocated_memory_pages := 0 },
       { eid := 2, fid := 0, iid := 0, sp := 12, last_jump_eid := 0,
         allocated_memory_pages := 0 }] ∧
      status_list [traceEntry 0] = none := by
  constructor
  · have h := (C5_terminal_row [retEntry] retEntry rfl).1 2 rfl
    rw [h]
    rfl
  · exact (C5_terminal_row [traceEntry 0] (traceEntry 0) rfl).2
      (fun d hd => Opcode.noConfusion hd)

/-! Claim C6: the backward rest-counter pass and the terminal zero pin. -/

theorem rest_ops_foldl_fst (mops jops : EtableEntry → Nat) :
    ∀ (m : List EtableEntry) (s : (Nat × Nat) × List (Nat × Nat)),
      (m.foldl (rest_ops_step mops jops) s).1 =
        (s.1.1 + (m.map mops).sum, s.1.2 + (m.map jops).sum) := by
  intro m
  induction m with
  | nil => intro s; simp
  | cons e m ih =>
    intro s
    rw [List.foldl_cons, ih]
    unfold rest_ops_step
    simp only [List.map_cons, List.sum_cons, Prod.mk.injEq]
    omega

theorem compute_rest_cons (mops jops : EtableEntry → Nat) (e : EtableEntry)
    (xs : List EtableEntry) :
    compute_rest_mops_and_jops mops jops (e :: xs) =
      (mops e + (xs.map mops).sum, jops e + (xs.map jops).sum) ::
        compute_rest_mops_and_jops mops jops xs := by
  have key : ∀ (S : (Nat × Nat) × List (Nat × Nat)),
      (rest_ops_step mops jops S e).2.reverse =
        (S.1.1 + mops e, S.1.2 + jops e) :: S.2.reverse := by
    intro S
    unfold rest_ops_step
    simp
  unfold compute_rest_mops_and_jops
  rw [List.reverse_cons, List.foldl_append, List.foldl_cons, List.foldl_nil, key]
  have hfst := rest_ops_foldl_fst mops jops xs.reverse ((0, 0), [])
  rw [List.map_reverse, List.sum_reverse, List.map_reverse, List.sum_reverse] at hfst
  rw [hfst]
  dsimp only
  simp only [Nat.zero_add, List.cons.injEq, Prod.mk.injEq]
  exact ⟨⟨Nat.add_comm _ _, Nat.add_comm _ _⟩, trivial⟩

/-- C6 counterexample: `EventTableChip::init` does not pin both rest counters
to zero at the terminal row — the rest-jops constant assignment is commented
out, so only the rest-mops cell is constrained. -/
theorem C6_counterexample :
    ¬ ((EtableCell.rest_mops_cell, 0) ∈ etable_init_terminal_constants ∧
      (EtableCell.rest_jops_cell, 0) ∈ etable_init_terminal_constants) := by
  decide

/-- C6 (amended): the event-table encoder computes, for every step, the
remaining-memory-write and remaining-jump-op counters as inclusive
right-to-left suffix sums of the per-step memory-write and jump-op counts, and
its terminal row pins exactly one constant: the remaining-memory-write counter
to zero (the remaining-jump-op zero constraint is commented out in
`EventTableChip::init`). -/
theorem C6_rest_counters :
    (∀ (mops jops : EtableEntry → Nat) (l : List EtableEntry),
      compute_rest_mops_and_jops mops jops l =
        (List.range l.length).map (fun i =>
          (((l.drop i).map mops).sum, ((l.drop i).map jops).sum))) ∧
    (EtableCell.rest_mops_cell, 0) ∈ etable_init_terminal_constants ∧
    etable_init_terminal_constants.length = 1 := by
  refine ⟨?_, by decide, rfl⟩
  intro mops jops l
  induction l with
  | nil => rfl
  | cons e xs ih =>
    rw [compute_rest_cons, ih, List.length_cons, List.range_succ_eq_map]
    rw [List.map_cons, List.map_map]
    refine congrArg₂ (fun h t => List.cons h t) ?_ ?_
    · simp
    · apply List.map_congr_left
      intro i _
      simp [Function.comp, List.drop_succ_cons]

/-! Claim C9: monotonicity of the four I/O cursors. -/

theorem scanl_cursor_head (f : IOCursors → EtableEntry → IOCursors)
    (c : IOCursors) (l : List EtableEntry) :
    (l.scanl f c).get? 0 = some c := by
  cases l <;> simp [List.scanl_nil, List.scanl_cons]

theorem scanl_cursor_step (flags : EtableEntry → IOCursorFlags) :
    ∀ (l : List EtableEntry) (c : IOCursors) (i : Nat) (a b : IOCursors),
      (l.scanl (advance_cursors flags) c).get? i = some a →
      (l.scanl (advance_cursors flags) c).get? (i + 1) = some b →
      (a.input_index ≤ b.input_index ∧ b.input_index ≤ a.input_index + 1) ∧
      (a.context_input_index ≤ b.context_input_index ∧
        b.context_input_index ≤ a.context_input_index + 1) ∧
      (a.context_output_index ≤ b.context_output_index ∧
        b.context_output_index ≤ a.context_output_index + 1) ∧
      (a.external_host_call_index ≤ b.external_host_call_index ∧
        b.external_host_call_index ≤ a.external_host_call_index + 1) := by
  intro l
  induction l with
  | nil =>
    intro c i a b _ hb
    rw [List.scanl_nil] at hb
    rcases i with _ | i <;> simp at hb
  | cons e l ih =>
    intro c i a b ha hb
    rw [List.scanl_cons] at ha hb
    simp only [List.cons_append, List.nil_append] at ha hb
    rcases i with _ | i
    · rw [List.get?_cons_zero, Option.some_inj] at ha
      rw [List.get?_cons_succ, scanl_cursor_head, Option.some_inj] at hb
      rw [← ha, ← hb]
      unfold advance_cursors
      refine ⟨⟨?_, ?_⟩, ⟨?_, ?_⟩, ⟨?_, ?_⟩, ?_, ?_⟩ <;> simp only [] <;>
        split <;> omega
    · rw [List.get?_cons_succ] at ha hb
      exact ih (advance_cursors flags c e) i a b ha hb

/-- C9: during event-table assignment each of the four I/O cursors starts at
its InitializationState value, and between consecutive assigned rows each
cursor is non-decreasing and increases by at most one. -/
theorem C9_cursor_monotonicity :
    ∀ (flags : EtableEntry → IOCursorFlags) (s : InitializationState)
      (l : List EtableEntry),
      (cursor_columns flags s l).get? 0 = some (initialCursors s) ∧
      ∀ (i : Nat) (a b : IOCursors),
        (cursor_columns flags s l).get? i = some a →
        (cursor_columns flags s l).get? (i + 1) = some b →
        (a.input_index ≤ b.input_index ∧ b.input_index ≤ a.input_index + 1) ∧
        (a.context_input_index ≤ b.context_input_index ∧
          b.context_input_index ≤ a.context_input_index + 1) ∧
        (a.context_output_index ≤ b.context_output_index ∧
          b.context_output_index ≤ a.context_output_index + 1) ∧
        (a.external_host_call_index ≤ b.external_host_call_index ∧
          b.external_host_call_index ≤ a.external_host_call_index + 1) := by
  intro flags s l
  exact ⟨scanl_cursor_head (advance_cursors flags) (initialCursors s) l,
    fun i a b ha hb => scanl_cursor_step flags l (initialCursors s) i a b ha hb⟩

/-- C9 witness: on a concrete two-step trace the cursor columns start at the
initialization values `(1, 1, 1, 1)` and step to `(1, 2, 1, 2)`, within the
allowed per-step bounds. -/
theorem C9_cursor_monotonicity_witness :
    (cursor_columns cexCursorFlags cexInitState [traceEntry 0, traceEntry 1]).get? 0 =
        some (initialCursors cexInitState) ∧
      (((1 : Nat) ≤ 1 ∧ (1 : Nat) ≤ 1 + 1) ∧ ((1 : Nat) ≤ 2 ∧ (2 : Nat) ≤ 1 + 1) ∧
        ((1 : Nat) ≤ 1 ∧ (1 : Nat) ≤ 1 + 1) ∧ ((1 : Nat) ≤ 2 ∧ (2 : Nat) ≤ 1 + 1)) := by
  constructor
  · exact (C9_cursor_monotonicity cexCursorFlags cexInitState
      [traceEntry 0, traceEntry 1]).1
  · exact (C9_cursor_monotonicity cexCursorFlags cexInitState
      [traceEntry 0, traceEntry 1]).2 0
      { input_index := 1, context_input_index := 1, context_output_index := 1,
        external_host_call_index := 1 }
      { input_index := 1, context_input_index := 2, context_output_index := 1,
        external_host_call_index := 2 }
      (by decide) (by decide)

/-! Claim C7: image-table padding and the missing capacity check. -/

/-- C7 counterexample: with capacity 2 and a 6-cell requirement,
`msg_of_image_table` returns the over-long unpadded cell sequence normally —
there is no `CapacityExceeded` error anywhere on this path. -/
theorem C7_counterexample :
    msg_of_image_table 2 cexEnc [1, 2, 3] [] [] [] [] =
        image_table_cells cexEnc [1, 2, 3] [] [] [] [] ∧
      2 < (image_table_cells cexEnc [1, 2, 3] [] [] [] []).length := by
  exact ⟨by decide, by decide⟩

/-- C7 (amended): the serialized image-table cell sequence (the three
sentinel-prefixed sub-tables) is padded with zero-valued cells up to the
configured capacity whenever it fits; when the row requirement exceeds the
capacity the sequence is returned over-long and unpadded — no
`CapacityExceeded` error is raised on this path. -/
theorem C7_image_table_padding :
    ∀ (maxRows : Nat) (enc : ImageTableTag → Nat → Nat)
      (itable br elem heap global : List Nat),
      (msg_of_image_table maxRows enc itable br elem heap global).take
          (image_table_cells enc itable br elem heap global).length =
        image_table_cells enc itable br elem heap global ∧
      (msg_of_image_table maxRows enc itable br elem heap global).length =
        max maxRows (image_table_cells enc itable br elem heap global).length ∧
      ∀ i : Nat, (image_table_cells enc itable br elem heap global).length ≤ i →
        i < (msg_of_image_table maxRows enc itable br elem heap global).length →
        (msg_of_image_table maxRows enc itable br elem heap global).get? i =
          some 0 := by
  intro maxRows enc itable br elem heap global
  refine ⟨List.take_left _ _, ?_, ?_⟩
  · unfold msg_of_image_table
    rw [List.length_append, List.length_replicate]
    omega
  · intro i hlo hhi
    unfold msg_of_image_table at hhi ⊢
    rw [List.length_append, List.length_replicate] at hhi
    rw [List.get?_eq_getElem?, List.getElem?_append_right hlo]
    rw [List.getElem?_eq_getElem (by rw [List.length_replicate]; omega)]
    rw [List.getElem_replicate]

/-- C7 witness: capacity 8 with a 6-cell requirement pads rows 6 and 7 with
zero cells and yields exactly 8 rows. -/
theorem C7_image_table_padding_witness :
    (image_table_cells cexEnc [1, 2, 3] [] [] [] []).length ≤ 7 ∧
      (msg_of_image_table 8 cexEnc [1, 2, 3] [] [] [] []).get? 7 = some 0 := by
  constructor
  · decide
  · exact (C7_image_table_padding 8 cexEnc [1, 2, 3] [] [] [] []).2.2 7
      (by decide) (by decide)

/-! Claim C8: the bit-decomposition table filter and row-block layout. -/

/-- C8 counterexample: the per-column row block written by `assign_u64_le`
touches the eleven row offsets 0 through 10 — one 64-bit row, one low-u32 row,
four byte rows, one high-u32 row and four byte rows — so an accepted entry
occupies an 11-row block, not the claimed 10-row block. -/
theorem C8_counterexample :
    (assign_u64_le 81985529216486895).map Prod.fst =
        [0, 1, 2, 3, 4, 5, 6, 7, 8, 9, 10] ∧
      (assign_u64_le 81985529216486895).length = 11 ∧
      ¬ (assign_u64_le 81985529216486895).length = 10 := by
  exact ⟨by decide, by decide, by decide⟩

/-- C8 (amended): the bit-table filter accepts exactly the 32-bit bitwise,
64-bit bitwise and population-count steps; each accepted entry's column
section holds the 64-bit value, the low 32 bits with their four little-endian
bytes, then the high 32 bits with their four little-endian bytes, across the
eleven row offsets 0-10 (an 11-row block); and a single 64-bit bitwise-AND
step yields exactly one accepted entry whose operands decompose accordingly. -/
theorem C8_bit_table_layout :
    (∀ l : List EtableEntry,
      (filter_bit_table_entries l).length = l.countP (fun e =>
        match e.step_info with
        | StepInfo.I32BinBitOp _ _ _ _ => true
        | StepInfo.I64BinBitOp _ _ _ _ => true
        | StepInfo.UnaryOp UnaryOpClass.Popcnt _ => true
        | _ => false)) ∧
    (∀ v : Nat, v < 2 ^ 64 →
      assign_u64_le v =
        [(0, v), (1, v % 2 ^ 32), (2, v % 2 ^ 32 % 256),
         (3, v % 2 ^ 32 / 256 % 256), (4, v % 2 ^ 32 / 2 ^ 16 % 256),
         (5, v % 2 ^ 32 / 2 ^ 24 % 256), (6, v / 2 ^ 32), (7, v / 2 ^ 32 % 256),
         (8, v / 2 ^ 32 / 256 % 256), (9, v / 2 ^ 32 / 2 ^ 16 % 256),
         (10, v / 2 ^ 32 / 2 ^ 24 % 256)] ∧
      v = v % 2 ^ 32 + 2 ^ 32 * (v / 2 ^ 32) ∧
      v % 2 ^ 32 = v % 2 ^ 32 % 256 + 256 * (v % 2 ^ 32 / 256 % 256) +
        2 ^ 16 * (v % 2 ^ 32 / 2 ^ 16 % 256) + 2 ^ 24 * (v % 2 ^ 32 / 2 ^ 24 % 256) ∧
      v / 2 ^ 32 = v / 2 ^ 32 % 256 + 256 * (v / 2 ^ 32 / 256 % 256) +
        2 ^ 16 * (v / 2 ^ 32 / 2 ^ 16 % 256) + 2 ^ 24 * (v / 2 ^ 32 / 2 ^ 24 % 256)) ∧
    (∀ v : Nat, (assign_u64_le v).map Prod.fst = List.range 11) ∧
    (∀ e : BitTableAssign, e.op ≠ BitTableOp.Popcnt →
      bit_table_block e =
        (assign_u64_le e.left, assign_u64_le e.right, assign_u64_le e.result)) ∧
    filter_bit_table_entries [andEntry] =
      [{ op := BitTableOp.BinaryBit BitOpClass.And, left := 81985529216486895,
         right := 4294967295, result := 2309737967 }] := by
  refine ⟨?_, ?_, ?_, ?_, by decide⟩
  · intro l
    induction l with
    | nil => rfl
    | cons e l ih =>
      unfold filter_bit_table_entries at ih ⊢
      rw [List.filterMap_cons, List.countP_cons]
      rcases hsi : e.step_info with ⟨cls, a, b, c⟩ | ⟨cls, a, b, c⟩ | ⟨cls, op⟩ | t
      · simp [hsi, ih]
      · simp [hsi, ih]
      · rcases cls with _ | _ | _ <;> simp [hsi, ih]
      · simp [hsi, ih]
  · intro v hv
    have hhigh : v / 2 ^ 32 % 2 ^ 32 = v / 2 ^ 32 := by
      apply Nat.mod_eq_of_lt
      omega
    refine ⟨?_, ?_, ?_, ?_⟩
    · unfold assign_u64_le u32_le_bytes
      rw [hhigh]
      rfl
    · omega
    · omega
    · omega
  · intro v
    unfold assign_u64_le u32_le_bytes
    rfl
  · intro e he
    unfold bit_table_block
    rw [if_neg he]

/-- C8 witness: the concrete AND operand 0x0123456789ABCDEF is within the
64-bit range and splits into its low and high 32-bit halves, and the AND
entry's block assigns the little-endian decomposition to all three columns. -/
theorem C8_bit_table_layout_witness :
    (81985529216486895 : Nat) < 2 ^ 64 ∧
      81985529216486895 =
        81985529216486895 % 2 ^ 32 + 2 ^ 32 * (81985529216486895 / 2 ^ 32) ∧
      bit_table_block
          { op := BitTableOp.BinaryBit BitOpClass.And, left := 81985529216486895,
            right := 4294967295, result := 2309737967 } =
        (assign_u64_le 81985529216486895, assign_u64_le 4294967295,
          assign_u64_le 2309737967) := by
  refine ⟨by norm_num,
    (C8_bit_table_layout.2.1 81985529216486895 (by norm_num)).2.1, ?_⟩
  exact C8_bit_table_layout.2.2.2.1
    { op := BitTableOp.BinaryBit BitOpClass.And, left := 81985529216486895,
      right := 4294967295, result := 2309737967 } (by decide)

/-! Slicer lemmas. -/

theorem prepend_boundary_head? {α : Type} (p c : List α) (hp : p ≠ []) :
    (prepend_boundary p c).head? = p.getLast? := by
  rcases hgl : p.getLast? with _ | x
  · exact absurd (List.getLast?_eq_none_iff.mp hgl) hp
  · unfold prepend_boundary
    rw [hgl]
    rfl

theorem prepend_boundary_tail {α : Type} (p c : List α) (hp : p ≠ []) :
    (prepend_boundary p c).tail = c := by
  rcases hgl : p.getLast? with _ | x
  · exact absurd (List.getLast?_eq_none_iff.mp hgl) hp
  · unfold prepend_boundary
    rw [hgl]
    rfl

theorem prepend_boundary_ne_nil {α : Type} (p c : List α) (hc : c ≠ []) :
    prepend_boundary p c ≠ [] := by
  unfold prepend_boundary
  rcases p.getLast? with _ | x
  · exact hc
  · simp

theorem prepend_boundary_getLast? {α : Type} (p c : List α) (hc : c ≠ []) :
    (prepend_boundary p c).getLast? = c.getLast? := by
  unfold prepend_boundary
  rcases p.getLast? with _ | x
  · rfl
  · rcases c with _ | ⟨d, ds⟩
    · exact absurd rfl hc
    · exact List.getLast?_cons_cons

theorem prepend_boundary_congr {α : Type} (p1 p2 c : List α)
    (h : p1.getLast? = p2.getLast?) :
    prepend_boundary p1 c = prepend_boundary p2 c := by
  unfold prepend_boundary
  rw [h]

theorem prependLastsGo_eq_zipWith {α : Type} :
    ∀ (cs : List (List α)) (prev : List α), prev ≠ [] → (∀ c ∈ cs, c ≠ []) →
      prependLastsGo prev cs = List.zipWith prepend_boundary (prev :: cs) cs := by
  intro cs
  induction cs with
  | nil => intro prev _ _; rfl
  | cons c cs ih =>
    intro prev hp hne
    have hc : c ≠ [] := hne c (by simp)
    have hpb : prepend_boundary prev c ≠ [] := prepend_boundary_ne_nil prev c hc
    unfold prependLastsGo
    rw [ih (prepend_boundary prev c) hpb (fun d hd => hne d (by simp [hd]))]
    rw [List.zipWith_cons_cons]
    rcases cs with _ | ⟨d, ds⟩
    · rfl
    · rw [List.zipWith_cons_cons, List.zipWith_cons_cons]
      have h2 : prepend_boundary (prepend_boundary prev c) d = prepend_boundary c d :=
        prepend_boundary_congr _ _ d (prepend_boundary_getLast? prev c hc)
      rw [h2]

theorem prependLastsGo_length {α : Type} :
    ∀ (cs : List (List α)) (prev : List α),
      (prependLastsGo prev cs).length = cs.length := by
  intro cs
  induction cs with
  | nil => intro prev; rfl
  | cons c rest ih =>
    intro prev
    unfold prependLastsGo
    rw [List.length_cons, List.length_cons, ih]

theorem prependLasts_length {α : Type} (cs : List (List α)) :
    (prependLasts cs).length = cs.length := by
  rcases cs with _ | ⟨c, rest⟩
  · rfl
  · show (c :: prependLastsGo c rest).length = _
    rw [List.length_cons, List.length_cons, prependLastsGo_length]

theorem prependLasts_get?_zero {α : Type} (cs : List (List α)) :
    (prependLasts cs).get? 0 = cs.get? 0 := by
  cases cs <;> rfl

theorem prependLasts_get?_succ {α : Type} (cs : List (List α))
    (hne : ∀ c ∈ cs, c ≠ []) (k : Nat) :
    (prependLasts cs).get? (k + 1) =
      ((cs.get? k).map prepend_boundary).bind fun g => (cs.get? (k + 1)).map g := by
  rcases cs with _ | ⟨c, rest⟩
  · rfl
  · have hc : c ≠ [] := hne c (by simp)
    show (c :: prependLastsGo c rest).get? (k + 1) = _
    rw [List.get?_cons_succ,
      prependLastsGo_eq_zipWith rest c hc (fun d hd => hne d (by simp [hd])),
      List.get?_zipWith']
    rfl

theorem prependLasts_mem_ne_nil {α : Type} :
    ∀ (cs : List (List α)), (∀ c ∈ cs, c ≠ []) →
      ∀ c ∈ prependLasts cs, c ≠ [] := by
  intro cs hne
  rcases cs with _ | ⟨c, rest⟩
  · intro c hc; simp [prependLasts] at hc
  · have go : ∀ (tl : List (List α)) (prev : List α), (∀ d ∈ tl, d ≠ []) →
        ∀ d ∈ prependLastsGo prev tl, d ≠ [] := by
      intro tl
      induction tl with
      | nil => intro prev _ d hd; simp [prependLastsGo] at hd
      | cons x xs ih =>
        intro prev hx d hd
        unfold prependLastsGo at hd
        rcases List.mem_cons.mp hd with h | h
        · rw [h]
          exact prepend_boundary_ne_nil prev x (hx x (by simp))
        · exact ih (prepend_boundary prev x) (fun y hy => hx y (by simp [hy])) d h
    intro d hd
    rcases List.mem_cons.mp hd with h | h
    · rw [h]; exact hne c (by simp)
    · exact go rest c (fun y hy => hne y (by simp [hy])) d h

theorem prependLasts_getLast?_eq {α : Type} (cs : List (List α))
    (hne : ∀ c ∈ cs, c ≠ []) (k : Nat) (ck c : List α)
    (h1 : (prependLasts cs).get? k = some ck) (h2 : cs.get? k = some c) :
    ck.getLast? = c.getLast? := by
  rcases k with _ | k
  · rw [prependLasts_get?_zero, h2, Option.some_inj] at h1
    rw [h1]
  · rw [prependLasts_get?_succ cs hne k] at h1
    rcases hp : cs.get? k with _ | p
    · rw [hp] at h1
      exact Option.noConfusion h1
    · rw [hp, h2] at h1
      simp only [Option.map_some', Option.some_bind, Option.some_inj] at h1
      rw [← h1]
      exact prepend_boundary_getLast? p c (hne c (List.get?_mem h2))

theorem chunksGo_fuel {α : Type} (n : Nat) (hn : 0 < n) :
    ∀ (fuel1 : Nat) (l : List α) (fuel2 : Nat), l.length ≤ fuel1 →
      l.length ≤ fuel2 → chunksGo n fuel1 l = chunksGo n fuel2 l := by
  intro fuel1
  induction fuel1 with
  | zero =>
    intro l fuel2 h1 _
    have : l = [] := List.eq_nil_of_length_eq_zero (Nat.le_zero.mp h1)
    subst this
    cases fuel2 <;> rfl
  | succ fuel ih =>
    intro l fuel2 h1 h2
    rcases l with _ | ⟨x, xs⟩
    · cases fuel2 <;> rfl
    · rcases fuel2 with _ | fuel2
      · simp at h2
      · show (x :: xs).take n :: chunksGo n fuel ((x :: xs).drop n) =
          (x :: xs).take n :: chunksGo n fuel2 ((x :: xs).drop n)
        rw [ih ((x :: xs).drop n) fuel2
          (by simp only [List.length_drop, List.length_cons] at *; omega)
          (by simp only [List.length_drop, List.length_cons] at *; omega)]

theorem chunkList_cons_eq {α : Type} (n : Nat) (x : α) (xs : List α) :
    chunkList (n + 1) (x :: xs) =
      (x :: xs).take (n + 1) :: chunkList (n + 1) ((x :: xs).drop (n + 1)) := by
  have h0 : chunkList (n + 1) (x :: xs) =
      (x :: xs).take (n + 1) :: chunksGo (n + 1) xs.length ((x :: xs).drop (n + 1)) := rfl
  rw [h0]
  congr 1
  exact chunksGo_fuel (n + 1) (Nat.succ_pos n) xs.length ((x :: xs).drop (n + 1))
    ((x :: xs).drop (n + 1)).length
    (by simp only [List.length_drop, List.length_cons]; omega) (Nat.le_refl _)

theorem chunkList_flatten_aux {α : Type} :
    ∀ (N n : Nat) (l : List α), l.length ≤ N → 0 < n →
      (chunkList n l).flatten = l := by
  intro N
  induction N with
  | zero =>
    intro n l hl _
    have : l = [] := List.eq_nil_of_length_eq_zero (Nat.le_zero.mp hl)
    subst this
    rcases n with _ | n <;> simp [chunkList, chunksGo]
  | succ N ihN =>
    intro n l hl hn
    rcases n with _ | n
    · omega
    · rcases l with _ | ⟨x, xs⟩
      · simp [chunkList, chunksGo]
      · rw [chunkList_cons_eq, List.flatten_cons,
          ihN (n + 1) ((x :: xs).drop (n + 1))
            (by simp only [List.length_drop, List.length_cons] at *; omega)
            (Nat.succ_pos n)]
        exact List.take_append_drop (n + 1) (x :: xs)

theorem chunkList_mem_aux {α : Type} :
    ∀ (N n : Nat) (l c : List α), l.length ≤ N → c ∈ chunkList n l →
      c ≠ [] ∧ c.length ≤ n := by
  intro N
  induction N with
  | zero =>
    intro n l c hl hc
    have : l = [] := List.eq_nil_of_length_eq_zero (Nat.le_zero.mp hl)
    subst this
    rcases n with _ | n <;> simp [chunkList, chunksGo] at hc
  | succ N ihN =>
    intro n l c hl hc
    rcases n with _ | n
    · simp [chunkList, chunksGo] at hc
    · rcases l with _ | ⟨x, xs⟩
      · simp [chunkList, chunksGo] at hc
      · rw [chunkList_cons_eq] at hc
        rcases List.mem_cons.mp hc with h | h
        · subst h
          refine ⟨by simp, ?_⟩
          rw [List.length_take]
          omega
        · exact ihN (n + 1) ((x :: xs).drop (n + 1)) c
            (by simp only [List.length_drop, List.length_cons] at *; omega) h

theorem chunkList_eq_nil_iff {α : Type} (n : Nat) (l : List α) (hn : 0 < n) :
    chunkList n l = [] ↔ l = [] := by
  rcases n with _ | n
  · omega
  · rcases l with _ | ⟨x, xs⟩
    · simp [chunkList, chunksGo]
    · rw [chunkList_cons_eq]
      simp

theorem chunkList_full_aux {α : Type} :
    ∀ (N n : Nat) (l : List α) (i : Nat) (ci cj : List α), l.length ≤ N →
      (chunkList n l).get? i = some ci → (chunkList n l).get? (i + 1) = some cj →
      ci.length = n := by
  intro N
  induction N with
  | zero =>
    intro n l i ci cj hl hi _
    have : l = [] := List.eq_nil_of_length_eq_zero (Nat.le_zero.mp hl)
    subst this
    rcases n with _ | n <;> simp [chunkList, chunksGo] at hi
  | succ N ihN =>
    intro n l i ci cj hl hi hj
    rcases n with _ | n
    · simp [chunkList, chunksGo] at hi
    · rcases l with _ | ⟨x, xs⟩
      · simp [chunkList, chunksGo] at hi
      · rw [chunkList_cons_eq] at hi hj
        rcases i with _ | i
        · rw [List.get?_cons_zero, Option.some_inj] at hi
          rw [List.get?_cons_succ] at hj
          have hnil : chunkList (n + 1) ((x :: xs).drop (n + 1)) ≠ [] := by
            intro hcontra
            rw [hcontra] at hj
            rcases (0 : Nat) with _ | _ <;> simp at hj
          have hdrop : (x :: xs).drop (n + 1) ≠ [] :=
            fun h => hnil (by rw [h]; simp [chunkList, chunksGo])
          have hlen : n + 1 < (x :: xs).length := by
            by_contra hcontra
            push_neg at hcontra
            exact hdrop (List.drop_eq_nil_of_le hcontra)
          rw [← hi, List.length_take]
          omega
        · rw [List.get?_cons_succ] at hi hj
          exact ihN (n + 1) ((x :: xs).drop (n + 1)) i ci cj
            (by simp only [List.length_drop, List.length_cons] at *; omega) hi hj

theorem update_rest_jops_eq_sub (jops : Opcode → Nat) :
    ∀ (es : List EtableEntry) (r : Nat),
      update_rest_jops jops r es = r - (es.map (fun e => jops e.opcode)).sum := by
  intro es
  induction es with
  | nil => intro r; simp [update_rest_jops]
  | cons e es ih =>
    intro r
    unfold update_rest_jops at ih ⊢
    rw [List.foldl_cons, ih, List.map_cons, List.sum_cons, Nat.sub_sub]

theorem rest_jops_after_succ (jops : Opcode → Nat) :
    ∀ (cs : List (List EtableEntry)) (k r : Nat) (es : List EtableEntry),
      cs.get? k = some es →
      rest_jops_after jops r (k + 1) cs =
        update_rest_jops jops (rest_jops_after jops r k cs) es := by
  intro cs
  induction cs with
  | nil => intro k r es h; simp at h
  | cons c rest ih =>
    intro k r es h
    rcases k with _ | k
    · rw [List.get?_cons_zero, Option.some_inj] at h
      subst h
      rfl
    · rw [List.get?_cons_succ] at h
      exact ih k (update_rest_jops jops r c) es h

theorem buildSlices_length (jops : Opcode → Nat) (g : SliceInitializationState) :
    ∀ (cs : List (List EtableEntry)) (r idx : Nat),
      (buildSlices jops g r idx cs).length = cs.length := by
  intro cs
  induction cs with
  | nil => intro r idx; rfl
  | cons c rest ih =>
    intro r idx
    unfold buildSlices
    rw [List.length_cons, List.length_cons, ih]

theorem buildSlices_map_snd (jops : Opcode → Nat) (g : SliceInitializationState) :
    ∀ (cs : List (List EtableEntry)) (r idx : Nat),
      (buildSlices jops g r idx cs).map Prod.snd = cs := by
  intro cs
  induction cs with
  | nil => intro r idx; rfl
  | cons c rest ih =>
    intro r idx
    unfold buildSlices
    rw [List.map_cons, ih]

theorem buildSlices_get? (jops : Opcode → Nat) (g : SliceInitializationState) :
    ∀ (cs : List (List EtableEntry)) (r idx k : Nat) (es : List EtableEntry),
      cs.get? k = some es →
      (buildSlices jops g r idx cs).get? k = some
        ((if idx + k = 0 then g
          else
            match es.head? with
            | some f => deriveSliceState f (rest_jops_after jops r k cs)
            | none => g), es) := by
  intro cs
  induction cs with
  | nil => intro r idx k es h; simp at h
  | cons c rest ih =>
    intro r idx k es h
    rcases k with _ | k
    · rw [List.get?_cons_zero, Option.some_inj] at h
      subst h
      unfold buildSlices
      rw [List.get?_cons_zero]
      rfl
    · rw [List.get?_cons_succ] at h
      unfold buildSlices
      rw [List.get?_cons_succ, ih (update_rest_jops jops r c) (idx + 1) k es h]
      have harith : idx + 1 + k = idx + (k + 1) := by omega
      rw [harith]
      rfl

/-! Claim C4: slice-boundary continuity. -/

/-- C4: for consecutive slices produced by `Slices::from_table`, the stored
InitializationState of slice `k + 1` equals the state re-derived from slice
`k`'s terminal event `b` (execution id, function id, instruction id,
frame id = last-jump execution id, stack pointer, allocated pages), with the
`rest_jops` counter equal to slice `k`'s counter decreased by the jump-op
costs of slice `k`'s stored events — the duplicated boundary event appearing
(and hence being charged) exactly once in that stored list. -/
theorem C4_slice_boundary_continuity :
    ∀ (jops : Opcode → Nat) (genesis : SliceInitializationState)
      (entries : List EtableEntry) (capability k : Nat)
      (sk sk1 : SliceInitializationState × List EtableEntry) (b : EtableEntry),
      2 ≤ capability →
      (from_table jops genesis entries capability).get? k = some sk →
      (from_table jops genesis entries capability).get? (k + 1) = some sk1 →
      sk.2.getLast? = some b →
      sk1.1 = deriveSliceState b
        (sk.1.rest_jops - (sk.2.map (fun e => jops e.opcode)).sum) := by
  intro jops g entries cap k sk sk1 b hcap hk hk1 hb
  unfold from_table at hk hk1
  set n : Nat := (cap - 1) * EVENT_TABLE_ENTRY_ROWS with hn
  have hnpos : 0 < n := by
    rw [hn]
    unfold EVENT_TABLE_ENTRY_ROWS
    omega
  set cs0 : List (List EtableEntry) := chunkList n entries with hcs0
  set cs : List (List EtableEntry) := prependLasts cs0 with hcs
  have hne0 : ∀ c ∈ cs0, c ≠ [] := fun c hc =>
    (chunkList_mem_aux entries.length n entries c (Nat.le_refl _) hc).1
  have hne : ∀ c ∈ cs, c ≠ [] := prependLasts_mem_ne_nil cs0 hne0
  -- extract the chunk stored in each of the two slices
  have hk_len : k < cs.length := by
    have := (List.get?_eq_some.mp hk).1
    rw [buildSlices_length] at this
    exact this
  have hk1_len : k + 1 < cs.length := by
    have := (List.get?_eq_some.mp hk1).1
    rw [buildSlices_length] at this
    exact this
  obtain ⟨esk, hesk⟩ : ∃ es, cs.get? k = some es := by
    rcases h : cs.get? k with _ | es
    · rw [List.get?_eq_none] at h; omega
    · exact ⟨es, rfl⟩
  obtain ⟨esk1, hesk1⟩ : ∃ es, cs.get? (k + 1) = some es := by
    rcases h : cs.get? (k + 1) with _ | es
    · rw [List.get?_eq_none] at h; omega
    · exact ⟨es, rfl⟩
  rw [buildSlices_get? jops g cs g.rest_jops 0 k esk hesk, Option.some_inj] at hk
  rw [buildSlices_get? jops g cs g.rest_jops 0 (k + 1) esk1 hesk1,
    Option.some_inj] at hk1
  -- the head of slice k+1 is the duplicated terminal event of slice k
  have hlencs : cs.length = cs0.length := by
    rw [hcs]
    exact prependLasts_length cs0
  have hhead : esk1.head? = some b := by
    rcases hk1' : cs0.get? k with _ | p
    · exfalso
      have : cs0.length ≤ k := List.get?_eq_none.mp hk1'
      omega
    · rcases hk1'' : cs0.get? (k + 1) with _ | c
      · exfalso
        have : cs0.length ≤ k + 1 := List.get?_eq_none.mp hk1''
        omega
      · have hsucc := prependLasts_get?_succ cs0 hne0 k
        rw [hk1', hk1''] at hsucc
        simp only [Option.map_some', Option.some_bind] at hsucc
        rw [← hcs] at hsucc
        rw [hsucc, Option.some_inj] at hesk1
        have hpne : p ≠ [] := hne0 p (List.get?_mem hk1')
        rw [← hesk1, prepend_boundary_head? p c hpne]
        have hlast : esk.getLast? = p.getLast? :=
          prependLasts_getLast?_eq cs0 hne0 k esk p hesk hk1'
        rw [← hlast]
        have : sk.2 = esk := by rw [← hk]
        rw [← this, hb]
  -- slice k's stored counter is the running counter before slice k
  have hcounter : sk.1.rest_jops = rest_jops_after jops g.rest_jops k cs := by
    rw [← hk]
    rcases k with _ | k
    · rfl
    · simp only [Nat.add_eq, Nat.zero_add]
      have hne_esk : esk ≠ [] := hne esk (List.get?_mem hesk)
      rcases hhd : esk.head? with _ | f
      · exact absurd (List.head?_eq_none_iff.mp hhd) hne_esk
      · simp [hhd, deriveSliceState]
  -- assemble
  have hsnd : sk.2 = esk := by rw [← hk]
  rw [← hk1]
  simp only [Nat.add_eq, Nat.zero_add]
  rw [hhead]
  simp only
  rw [rest_jops_after_succ jops cs k g.rest_jops esk hesk,
    update_rest_jops_eq_sub jops esk (rest_jops_after jops g.rest_jops k cs),
    ← hcounter, ← hsnd]
  rw [if_neg (Nat.succ_ne_zero k)]

/-- C4 witness: on a concrete 5-event trace sliced with capability 3 (chunks
of two events), slice 1's stored state is re-derived from slice 0's terminal
event with the counter decreased by slice 0's jump-op costs. -/
theorem C4_slice_boundary_continuity_witness :
    ((from_table unitJops sliceGenesis trace5 3).getD 1 (sliceGenesis, [])).1 =
      deriveSliceState (traceEntry 1)
        (((from_table unitJops sliceGenesis trace5 3).getD 0 (sliceGenesis, [])).1.rest_jops -
          ((((from_table unitJops sliceGenesis trace5 3).getD 0 (sliceGenesis, [])).2).map
            (fun e => unitJops e.opcode)).sum) := by
  exact C4_slice_boundary_continuity unitJops sliceGenesis trace5 3 0
    ((from_table unitJops sliceGenesis trace5 3).getD 0 (sliceGenesis, []))
    ((from_table unitJops sliceGenesis trace5 3).getD 1 (sliceGenesis, []))
    (traceEntry 1) (by decide) (by decide) (by decide) (by decide)

theorem from_table_adjacent_chunks :
    ∀ (jops : Opcode → Nat) (g : SliceInitializationState)
      (entries : List EtableEntry) (cap k : Nat)
      (sk sk1 : SliceInitializationState × List EtableEntry),
      2 ≤ cap →
      (from_table jops g entries cap).get? k = some sk →
      (from_table jops g entries cap).get? (k + 1) = some sk1 →
      ∃ p c,
        (chunkList ((cap - 1) * EVENT_TABLE_ENTRY_ROWS) entries).get? k = some p ∧
        (chunkList ((cap - 1) * EVENT_TABLE_ENTRY_ROWS) entries).get? (k + 1) = some c ∧
        p ≠ [] ∧ c ≠ [] ∧ sk.2.getLast? = p.getLast? ∧
        sk1.2 = prepend_boundary p c := by
  intro jops g entries cap k sk sk1 hcap hk hk1
  unfold from_table at hk hk1
  set n : Nat := (cap - 1) * EVENT_TABLE_ENTRY_ROWS with hn
  have hnpos : 0 < n := by
    rw [hn]
    unfold EVENT_TABLE_ENTRY_ROWS
    omega
  set cs0 : List (List EtableEntry) := chunkList n entries with hcs0
  set cs : List (List EtableEntry) := prependLasts cs0 with hcs
  have hne0 : ∀ c ∈ cs0, c ≠ [] := fun c hc =>
    (chunkList_mem_aux entries.length n entries c (Nat.le_refl _) hc).1
  have hk_len : k < cs.length := by
    have := (List.get?_eq_some.mp hk).1
    rw [buildSlices_length] at this
    exact this
  have hk1_len : k + 1 < cs.length := by
    have := (List.get?_eq_some.mp hk1).1
    rw [buildSlices_length] at this
    exact this
  have hlencs : cs.length = cs0.length := by
    rw [hcs]
    exact prependLasts_length cs0
  obtain ⟨esk, hesk⟩ : ∃ es, cs.get? k = some es := by
    rcases h : cs.get? k with _ | es
    · rw [List.get?_eq_none] at h; omega
    · exact ⟨es, rfl⟩
  obtain ⟨esk1, hesk1⟩ : ∃ es, cs.get? (k + 1) = some es := by
    rcases h : cs.get? (k + 1) with _ | es
    · rw [List.get?_eq_none] at h; omega
    · exact ⟨es, rfl⟩
  rw [buildSlices_get? jops g cs g.rest_jops 0 k esk hesk, Option.some_inj] at hk
  rw [buildSlices_get? jops g cs g.rest_jops 0 (k + 1) esk1 hesk1,
    Option.some_inj] at hk1
  obtain ⟨p, hp⟩ : ∃ p, cs0.get? k = some p := by
    rcases h : cs0.get? k with _ | p
    · rw [List.get?_eq_none] at h; omega
    · exact ⟨p, rfl⟩
  obtain ⟨c, hc⟩ : ∃ c, cs0.get? (k + 1) = some c := by
    rcases h : cs0.get? (k + 1) with _ | c
    · rw [List.get?_eq_none] at h; omega
    · exact ⟨c, rfl⟩
  have hsucc := prependLasts_get?_succ cs0 hne0 k
  rw [hp, hc] at hsucc
  simp only [Option.map_some', Option.some_bind] at hsucc
  rw [← hcs] at hsucc
  rw [hsucc, Option.some_inj] at hesk1
  refine ⟨p, c, hp, hc, hne0 p (List.get?_mem hp), hne0 c (List.get?_mem hc), ?_, ?_⟩
  · have hsk2 : sk.2 = esk := by rw [← hk]
    rw [hsk2]
    exact prependLasts_getLast?_eq cs0 hne0 k esk p hesk hp
  · have hsk12 : sk1.2 = esk1 := by rw [← hk1]
    rw [hsk12, ← hesk1]

/-! Claim C1: the slicing partition and boundary duplication. -/

/-- C1: `Slices::from_table` partitions the event sequence into chunks whose
concatenation is the original sequence, with every chunk non-empty, every
non-final chunk holding exactly the chunk size, and — with the spec-modelled
`EVENT_TABLE_ENTRY_ROWS = 1` unit — that chunk size is `capability − 1`
events; every slice after the first prepends a copy of the previous slice's
last event; and the concrete 250-event trace sliced with capacity 100 yields
3 slices of sizes 99/100/53 whose tails after the duplicated boundary events
reassemble the original 250 events, each boundary event occurring exactly
twice and the interior events exactly once. -/
theorem C1_slice_partition :
    (∀ (n : Nat) (l : List EtableEntry), 0 < n → (chunkList n l).flatten = l) ∧
    (∀ (n : Nat) (l c : List EtableEntry), c ∈ chunkList n l →
      c ≠ [] ∧ c.length ≤ n) ∧
    (∀ (n : Nat) (l : List EtableEntry) (i : Nat) (ci cj : List EtableEntry),
      (chunkList n l).get? i = some ci → (chunkList n l).get? (i + 1) = some cj →
      ci.length = n) ∧
    (∀ (jops : Opcode → Nat) (g : SliceInitializationState)
      (entries : List EtableEntry) (cap : Nat),
      (from_table jops g entries cap).map Prod.snd =
        prependLasts (chunkList ((cap - 1) * EVENT_TABLE_ENTRY_ROWS) entries)) ∧
    (∀ (jops : Opcode → Nat) (g : SliceInitializationState)
      (entries : List EtableEntry) (cap k : Nat)
      (sk sk1 : SliceInitializationState × List EtableEntry),
      2 ≤ cap →
      (from_table jops g entries cap).get? k = some sk →
      (from_table jops g entries cap).get? (k + 1) = some sk1 →
      sk1.2.head? = sk.2.getLast? ∧
      sk1.2.tail =
        (chunkList ((cap - 1) * EVENT_TABLE_ENTRY_ROWS) entries).getD (k + 1) []) ∧
    ((from_table unitJops sliceGenesis trace250 100).length = 3 ∧
      (from_table unitJops sliceGenesis trace250 100).map (fun s => s.2.length) =
        [99, 100, 53] ∧
      ((from_table unitJops sliceGenesis trace250 100).map Prod.snd).getD 0 [] ++
        (((from_table unitJops sliceGenesis trace250 100).map Prod.snd).getD 1 []).tail ++
        (((from_table unitJops sliceGenesis trace250 100).map Prod.snd).getD 2 []).tail =
        trace250 ∧
      ((from_table unitJops sliceGenesis trace250 100).map Prod.snd).flatten.count
        (traceEntry 98) = 2 ∧
      ((from_table unitJops sliceGenesis trace250 100).map Prod.snd).flatten.count
        (traceEntry 197) = 2 ∧
      ((from_table unitJops sliceGenesis trace250 100).map Prod.snd).flatten.count
        (traceEntry 0) = 1 ∧
      ((from_table unitJops sliceGenesis trace250 100).map Prod.snd).flatten.length =
        252) := by
  refine ⟨?_, ?_, ?_, ?_, ?_, ?_⟩
  · exact fun n l hn => chunkList_flatten_aux l.length n l (Nat.le_refl _) hn
  · exact fun n l c hc => chunkList_mem_aux l.length n l c (Nat.le_refl _) hc
  · exact fun n l i ci cj hi hj => chunkList_full_aux l.length n l i ci cj
      (Nat.le_refl _) hi hj
  · intro jops g entries cap
    unfold from_table
    exact buildSlices_map_snd jops g _ g.rest_jops 0
  · intro jops g entries cap k sk sk1 hcap hk hk1
    obtain ⟨p, c, hp, hc, hpne, hcne, hlast, hpb⟩ :=
      from_table_adjacent_chunks jops g entries cap k sk sk1 hcap hk hk1
    refine ⟨?_, ?_⟩
    · rw [hpb, prepend_boundary_head? p c hpne, hlast]
    · rw [hpb, prepend_boundary_tail p c hpne,
        List.getD_eq_getElem?_getD, ← List.get?_eq_getElem?, hc]
      rfl
  · exact ⟨by decide, by decide, by decide, by decide, by decide, by decide, by decide⟩

/-- C1 witness: concrete instances of the partition facts on a 5-event trace
with capability 3: the chunks of two events concatenate back to the trace,
the first chunk is full, and slice 1 starts with slice 0's last event. -/
theorem C1_slice_partition_witness :
    (chunkList 2 trace5).flatten = trace5 ∧
      ((chunkList 2 trace5).getD 0 []).length = 2 ∧
      ((from_table unitJops sliceGenesis trace5 3).getD 1 (sliceGenesis, [])).2.head? =
        ((from_table unitJops sliceGenesis trace5 3).getD 0 (sliceGenesis, [])).2.getLast? := by
  refine ⟨C1_slice_partition.1 2 trace5 (by decide), ?_, ?_⟩
  · exact C1_slice_partition.2.2.1 2 trace5 0 ((chunkList 2 trace5).getD 0 [])
      ((chunkList 2 trace5).getD 1 []) (by decide) (by decide)
  · exact (C1_slice_partition.2.2.2.2.1 unitJops sliceGenesis trace5 3 0
      ((from_table unitJops sliceGenesis trace5 3).getD 0 (sliceGenesis, []))
      ((from_table unitJops sliceGenesis trace5 3).getD 1 (sliceGenesis, []))
      (by decide) (by decide) (by decide)).1

end ZkWasm
